import Mathlib

set_option linter.unnecessarySeqFocus false

/-!
Verification of the expectation-value kernel described by the repository's
specification.  The repository's two notebooks call the kernel
(`cy_expect`, `expect_psi`, `expect_rho_vec`) from an external library, so
the kernel bodies are not part of the repository's sources; the definitions
below model them from the specification's algorithm description
(compressed-sparse-row traversal, fused matrix-vector/inner-product pass,
vectorized density-operator path).  Floating-point complex scalars are
idealized as exact complex numbers with rational components, so equalities
that the specification states "up to floating-point tolerance" are proved
exactly.
-/

namespace QutipKernels

/-- An exact complex scalar: rational real and imaginary parts.  This is the
idealization of the double-precision complex numbers used by the kernel. -/
structure Cx where
  re : ℚ
  im : ℚ
deriving DecidableEq

theorem Cx.ext {z w : Cx} (hre : z.re = w.re) (him : z.im = w.im) : z = w := by
  cases z; cases w; cases hre; cases him; rfl

instance : Zero Cx := ⟨⟨0, 0⟩⟩

instance : One Cx := ⟨⟨1, 0⟩⟩

instance : Add Cx := ⟨fun z w => ⟨z.re + w.re, z.im + w.im⟩⟩

instance : Neg Cx := ⟨fun z => ⟨-z.re, -z.im⟩⟩

instance : Mul Cx := ⟨fun z w => ⟨z.re * w.re - z.im * w.im, z.re * w.im + z.im * w.re⟩⟩

@[simp] theorem Cx.zero_re : (0 : Cx).re = 0 := rfl

@[simp] theorem Cx.zero_im : (0 : Cx).im = 0 := rfl

@[simp] theorem Cx.one_re : (1 : Cx).re = 1 := rfl

@[simp] theorem Cx.one_im : (1 : Cx).im = 0 := rfl

@[simp] theorem Cx.add_re (z w : Cx) : (z + w).re = z.re + w.re := rfl

@[simp] theorem Cx.add_im (z w : Cx) : (z + w).im = z.im + w.im := rfl

@[simp] theorem Cx.neg_re (z : Cx) : (-z).re = -z.re := rfl

@[simp] theorem Cx.neg_im (z : Cx) : (-z).im = -z.im := rfl

@[simp] theorem Cx.mul_re (z w : Cx) : (z * w).re = z.re * w.re - z.im * w.im := rfl

@[simp] theorem Cx.mul_im (z w : Cx) : (z * w).im = z.re * w.im + z.im * w.re := rfl

instance : CommRing Cx where
  add := (· + ·)
  zero := 0
  neg := (-·)
  mul := (· * ·)
  one := 1
  add_assoc a b c := by apply Cx.ext <;> simp <;> ring
  zero_add a := by apply Cx.ext <;> simp
  add_zero a := by apply Cx.ext <;> simp
  add_comm a b := by apply Cx.ext <;> simp <;> ring
  neg_add_cancel a := by apply Cx.ext <;> simp
  left_distrib a b c := by apply Cx.ext <;> simp <;> ring
  right_distrib a b c := by apply Cx.ext <;> simp <;> ring
  zero_mul a := by apply Cx.ext <;> simp
  mul_zero a := by apply Cx.ext <;> simp
  mul_assoc a b c := by apply Cx.ext <;> simp <;> ring
  one_mul a := by apply Cx.ext <;> simp
  mul_one a := by apply Cx.ext <;> simp
  mul_comm a b := by apply Cx.ext <;> simp <;> ring
  nsmul := nsmulRec
  zsmul := zsmulRec

/-- Complex conjugation. -/
def conj (z : Cx) : Cx := ⟨z.re, -z.im⟩

@[simp] theorem conj_re (z : Cx) : (conj z).re = z.re := rfl

@[simp] theorem conj_im (z : Cx) : (conj z).im = -z.im := rfl

/-- The squared modulus of a complex scalar. -/
def Cx.normSq (z : Cx) : ℚ := z.re * z.re + z.im * z.im

/-- Embedding of a real (rational) scalar as a complex scalar. -/
def ofRat (q : ℚ) : Cx := ⟨q, 0⟩

@[simp] theorem ofRat_re (q : ℚ) : (ofRat q).re = q := rfl

@[simp] theorem ofRat_im (q : ℚ) : (ofRat q).im = 0 := rfl

theorem Cx.one_def : (1 : Cx) = (⟨1, 0⟩ : Cx) := rfl

theorem Cx.zero_def : (0 : Cx) = (⟨0, 0⟩ : Cx) := rfl

theorem Cx.mk_mul_mk (a b c d : ℚ) :
    ((⟨a, b⟩ : Cx) * ⟨c, d⟩) = (⟨a * c - b * d, a * d + b * c⟩ : Cx) := rfl

theorem Cx.mk_add_mk (a b c d : ℚ) :
    ((⟨a, b⟩ : Cx) + ⟨c, d⟩) = (⟨a + c, b + d⟩ : Cx) := rfl

theorem conj_mul_self (z : Cx) : conj z * z = ⟨Cx.normSq z, 0⟩ := by
  apply Cx.ext <;> simp [Cx.normSq] <;> ring

theorem re_sum {ι : Type} (s : Finset ι) (f : ι → Cx) :
    (∑ i in s, f i).re = ∑ i in s, (f i).re := by
  induction s using Finset.cons_induction with
  | empty => simp
  | cons a s ha ih => simp [Finset.sum_cons, ih]

/-- Modelled from the spec: an operator in compressed-sparse-row layout,
"three parallel arrays — nonzero values (complex numbers), column indices
(integers), row pointers (integers marking the start offset of each row
within the values/indices arrays)".  Arrays are embedded as total functions
from positions; the operator's dimension `n` is passed separately. -/
structure CSR where
  data : ℕ → Cx
  indices : ℕ → ℕ
  indptr : ℕ → ℕ

/-- The spec's CSR invariant on column indices: every column index stored in
one of the first `n` rows is a valid index into the vector being multiplied. -/
def colsOk (n : ℕ) (A : CSR) : Prop :=
  ∀ i < n, ∀ k < A.indptr (i + 1), A.indptr i ≤ k → A.indices k < n

instance (n : ℕ) (A : CSR) : Decidable (colsOk n A) := by
  unfold colsOk; infer_instance

/-- One row of the sparse matrix-vector product: starting from accumulator
`acc`, add `value * psi[column index]` for each nonzero entry of positions
`[s, e)`.  This is the kernel's inner loop. -/
def rowAccum (A : CSR) (psi : ℕ → Cx) (s e : ℕ) (acc : Cx) : Cx :=
  (List.range' s (e - s)).foldl (fun a k => a + A.data k * psi (A.indices k)) acc

/-- Modelled from the spec: the raw complex accumulator of the fused
wavefunction kernel `cy_expect` — "for each row i of A, accumulate the sum
over nonzero entries (value × ψ[column index]) to form (Aψ)[i]; then
accumulate the inner product conjugate(ψ[i]) × (Aψ)[i] across all i", in a
single pass that never materializes the intermediate vector Aψ. -/
def cy_expect_complex (n : ℕ) (A : CSR) (psi : ℕ → Cx) : Cx :=
  (List.range n).foldl
    (fun acc i => acc + conj (psi i) * rowAccum A psi (A.indptr i) (A.indptr (i + 1)) 0) 0

/-- Modelled from the spec: the fused wavefunction kernel `cy_expect` on its
Hermitian fast path (flag = 1): "final result is the real part of that
accumulated complex sum". -/
def cy_expect (n : ℕ) (A : CSR) (psi : ℕ → Cx) : ℚ :=
  (cy_expect_complex n A psi).re

/-- Modelled from the spec: the two-pass variant (`expect_psi`), which first
materializes the vector Aψ in full and then reduces it against conj(ψ),
summing exactly the same terms as the fused pass. -/
def expect_psi_complex (n : ℕ) (A : CSR) (psi : ℕ → Cx) : Cx :=
  let apsi := (List.range n).map (fun i => rowAccum A psi (A.indptr i) (A.indptr (i + 1)) 0)
  (List.zipWith (fun zi y => conj zi * y) ((List.range n).map psi) apsi).foldl
    (fun a z => a + z) 0

/-- The dense matrix entry represented by the CSR data: the sum of the stored
values of row `i` whose column index is `j` (duplicate entries add up). -/
def toDense (A : CSR) (i j : ℕ) : Cx :=
  ∑ k in Finset.Ico (A.indptr i) (A.indptr (i + 1)), if A.indices k = j then A.data k else 0

section FoldLemmas

theorem foldl_add_eq (l : List ℕ) (f : ℕ → Cx) (init : Cx) :
    l.foldl (fun a k => a + f k) init = init + (l.map f).sum := by
  induction l generalizing init with
  | nil => simp
  | cons x xs ih => simp [List.foldl_cons, ih, add_assoc]

theorem foldl_add_id_eq (l : List Cx) (init : Cx) :
    l.foldl (fun a z => a + z) init = init + l.sum := by
  induction l generalizing init with
  | nil => simp
  | cons x xs ih => simp [List.foldl_cons, ih, add_assoc]

theorem range_map_sum (n : ℕ) (f : ℕ → Cx) :
    ((List.range n).map f).sum = ∑ i in Finset.range n, f i := by
  induction n with
  | zero => simp
  | succ m ih => simp [List.range_succ, Finset.sum_range_succ, ih]

theorem rowAccum_eq_sum (A : CSR) (psi : ℕ → Cx) (s e : ℕ) :
    rowAccum A psi s e 0 = ∑ k in Finset.Ico s e, A.data k * psi (A.indices k) := by
  unfold rowAccum
  rw [foldl_add_eq, zero_add]
  rcases le_or_lt s e with h | h
  · rw [List.range'_eq_map_range]
    rw [List.map_map, range_map_sum, Finset.sum_Ico_eq_sum_range]
    rfl
  · rw [Nat.sub_eq_zero_of_le h.le]
    simp [Finset.Ico_eq_empty_of_le h.le]

theorem cy_expect_complex_eq_sum (n : ℕ) (A : CSR) (psi : ℕ → Cx) :
    cy_expect_complex n A psi =
      ∑ i in Finset.range n, conj (psi i) *
        ∑ k in Finset.Ico (A.indptr i) (A.indptr (i + 1)), A.data k * psi (A.indices k) := by
  unfold cy_expect_complex
  rw [foldl_add_eq, zero_add, range_map_sum]
  exact Finset.sum_congr rfl fun i _ => by rw [rowAccum_eq_sum]

theorem zipWith_map_same {α β γ δ : Type} (f : β → γ → δ) (g : α → β) (h : α → γ) :
    ∀ l : List α, List.zipWith f (l.map g) (l.map h) = l.map fun x => f (g x) (h x)
  | [] => rfl
  | x :: xs => by simp [List.zipWith, zipWith_map_same f g h xs]

theorem expect_psi_complex_eq (n : ℕ) (A : CSR) (psi : ℕ → Cx) :
    expect_psi_complex n A psi = cy_expect_complex n A psi := by
  unfold expect_psi_complex
  dsimp only
  rw [zipWith_map_same, foldl_add_id_eq, zero_add, range_map_sum,
    cy_expect_complex_eq_sum]
  exact Finset.sum_congr rfl fun i _ => by rw [rowAccum_eq_sum]

end FoldLemmas

section DenseBridge

theorem rowAccum_eq_dense (n : ℕ) (A : CSR) (psi : ℕ → Cx) (i : ℕ)
    (h : ∀ k < A.indptr (i + 1), A.indptr i ≤ k → A.indices k < n) :
    rowAccum A psi (A.indptr i) (A.indptr (i + 1)) 0 =
      ∑ j in Finset.range n, toDense A i j * psi j := by
  rw [rowAccum_eq_sum]
  unfold toDense
  have hpush : ∀ j ∈ Finset.range n,
      (∑ k in Finset.Ico (A.indptr i) (A.indptr (i + 1)),
        if A.indices k = j then A.data k else 0) * psi j =
      ∑ k in Finset.Ico (A.indptr i) (A.indptr (i + 1)),
        if A.indices k = j then A.data k * psi j else 0 := by
    intro j _
    rw [Finset.sum_mul]
    exact Finset.sum_congr rfl fun k _ => by rw [ite_mul, zero_mul]
  rw [Finset.sum_congr rfl hpush, Finset.sum_comm]
  apply Finset.sum_congr rfl
  intro k hk
  rw [Finset.sum_ite_eq]
  rw [Finset.mem_Ico] at hk
  rw [if_pos (Finset.mem_range.mpr (h k hk.2 hk.1))]

theorem cy_expect_complex_eq_dense (n : ℕ) (A : CSR) (psi : ℕ → Cx) (h : colsOk n A) :
    cy_expect_complex n A psi =
      ∑ i in Finset.range n, conj (psi i) * ∑ j in Finset.range n, toDense A i j * psi j := by
  unfold cy_expect_complex
  rw [foldl_add_eq, zero_add, range_map_sum]
  exact Finset.sum_congr rfl fun i hi => by
    rw [rowAccum_eq_dense n A psi i (h i (Finset.mem_range.mp hi))]

end DenseBridge

section DensityPath

/-- The density operator of a pure state: ρ = ψψ*, so ρ[i][j] = ψ[i]·conj(ψ[j]). -/
def outer (psi : ℕ → Cx) (i j : ℕ) : Cx := psi i * conj (psi j)

/-- Modelled from the spec: column-stacking vectorization of a dense density
matrix of dimension `n` — entry (i, j) of ρ sits at flat position i + n·j of
the vectorized form. -/
def vecDM (n : ℕ) (rho : ℕ → ℕ → Cx) (c : ℕ) : Cx := rho (c % n) (c / n)

/-- Modelled from the spec: the superoperator of left multiplication by `A`
(`spre`), acting on column-stacked vectorized density matrices; it is the
dense matrix of dimension `n²` with entry (i + n·j, k + n·l) equal to
A[i][k] when j = l and 0 otherwise. -/
def spre (n : ℕ) (A : CSR) (r c : ℕ) : Cx :=
  if r / n = c / n then toDense A (r % n) (c % n) else 0

/-- Modelled from the spec: the raw complex accumulator of the
density-operator/vectorized kernel `expect_rho_vec` — apply the
superoperator `S` (dimension `n²`) to the vectorized density matrix `v` and
take the trace of the result, i.e. sum the entries of S·v at the diagonal
flat positions d + n·d. -/
def expect_rho_vec_complex (n : ℕ) (S : ℕ → ℕ → Cx) (v : ℕ → Cx) : Cx :=
  ∑ d in Finset.range n, ∑ c in Finset.range (n * n), S (d + n * d) c * v c

/-- Modelled from the spec: the density-operator/vectorized kernel on its
Hermitian fast path (flag = 1), returning the real part. -/
def expect_rho_vec (n : ℕ) (S : ℕ → ℕ → Cx) (v : ℕ → Cx) : ℚ :=
  (expect_rho_vec_complex n S v).re

theorem sum_range_mul_eq {M : Type} [AddCommMonoid M] (n m : ℕ) (f : ℕ → M) :
    ∑ c in Finset.range (n * m), f c =
      ∑ j in Finset.range m, ∑ i in Finset.range n, f (i + n * j) := by
  induction m with
  | zero => simp
  | succ t ih =>
    have h1 : ∑ c in Finset.Ico 0 (n * t), f c + ∑ c in Finset.Ico (n * t) (n * t + n), f c =
        ∑ c in Finset.Ico 0 (n * t + n), f c :=
      Finset.sum_Ico_consecutive f (Nat.zero_le (n * t)) (Nat.le_add_right (n * t) n)
    have h2 : ∑ c in Finset.Ico (n * t) (n * t + n), f c =
        ∑ i in Finset.range n, f (i + n * t) := by
      rw [Finset.sum_Ico_eq_sum_range, Nat.add_sub_cancel_left]
      exact Finset.sum_congr rfl fun i _ => by rw [Nat.add_comm]
    calc ∑ c in Finset.range (n * (t + 1)), f c
        = ∑ c in Finset.Ico 0 (n * t + n), f c := by
          rw [Finset.range_eq_Ico, Nat.mul_succ]
      _ = ∑ c in Finset.Ico 0 (n * t), f c + ∑ c in Finset.Ico (n * t) (n * t + n), f c :=
          h1.symm
      _ = ∑ j in Finset.range t, (∑ i in Finset.range n, f (i + n * j)) +
            ∑ i in Finset.range n, f (i + n * t) := by
          rw [h2, ← Finset.range_eq_Ico, ih]
      _ = ∑ j in Finset.range (t + 1), ∑ i in Finset.range n, f (i + n * j) :=
          (Finset.sum_range_succ _ t).symm

theorem flat_mod (n k l : ℕ) (hk : k < n) : (k + n * l) % n = k := by
  rw [Nat.add_mul_mod_self_left, Nat.mod_eq_of_lt hk]

theorem flat_div (n k l : ℕ) (hk : k < n) : (k + n * l) / n = l := by
  rw [Nat.add_mul_div_left _ _ (Nat.lt_of_le_of_lt (Nat.zero_le k) hk),
    Nat.div_eq_of_lt hk, Nat.zero_add]

theorem expect_rho_vec_complex_outer (n : ℕ) (A : CSR) (psi : ℕ → Cx) :
    expect_rho_vec_complex n (spre n A) (vecDM n (outer psi)) =
      ∑ d in Finset.range n, ∑ k in Finset.range n,
        toDense A d k * (psi k * conj (psi d)) := by
  unfold expect_rho_vec_complex
  apply Finset.sum_congr rfl
  intro d hd
  have hdn := Finset.mem_range.mp hd
  rw [sum_range_mul_eq, Finset.sum_comm]
  apply Finset.sum_congr rfl
  intro k hk
  have hkn := Finset.mem_range.mp hk
  have hterm : ∀ l ∈ Finset.range n,
      spre n A (d + n * d) (k + n * l) * vecDM n (outer psi) (k + n * l) =
      if d = l then toDense A d k * (psi k * conj (psi l)) else 0 := by
    intro l hl
    unfold spre vecDM outer
    rw [flat_mod n d d hdn, flat_div n d d hdn, flat_mod n k l hkn, flat_div n k l hkn,
      ite_mul, zero_mul]
  rw [Finset.sum_congr rfl hterm, Finset.sum_ite_eq, if_pos hd]

end DensityPath

section CheckedEntry

/-- Modelled from the spec: the kernel's single failure mode, "dimension
mismatch between operator and vector/matrix is a fatal input error
(signaled as an InvalidDimension error)". -/
inductive KernelError where
  | InvalidDimension
deriving DecidableEq

/-- Modelled from the spec: the wavefunction entry point with its
precondition check — "operator dimension must equal vector/matrix
dimension"; on mismatch it returns `InvalidDimension` carrying no partial
result, otherwise the fused kernel's value. -/
def expect_checked (n : ℕ) (A : CSR) (psi : List Cx) : Except KernelError ℚ :=
  if psi.length = n then Except.ok (cy_expect n A fun i => psi.getD i 0)
  else Except.error KernelError.InvalidDimension

/-- Modelled from the spec: the density-operator entry point (vectorized
density matrix of dimension n²) with the same dimension check. -/
def expect_rho_vec_checked (n : ℕ) (A : CSR) (rhoVec : List Cx) : Except KernelError ℚ :=
  if rhoVec.length = n * n then
    Except.ok (expect_rho_vec n (spre n A) fun c => rhoVec.getD c 0)
  else Except.error KernelError.InvalidDimension

end CheckedEntry

section NamedOperators

/-- The spec's Hermiticity precondition, on the dense interpretation of the
CSR data: A† = A on the leading n×n block. -/
def IsHermitian (n : ℕ) (A : CSR) : Prop :=
  ∀ i < n, ∀ j < n, toDense A j i = conj (toDense A i j)

instance (n : ℕ) (A : CSR) : Decidable (IsHermitian n A) := by
  unfold IsHermitian; infer_instance

/-- The spec's unit-norm condition on a state vector of dimension n. -/
def UnitNorm (n : ℕ) (psi : ℕ → Cx) : Prop :=
  ∑ i in Finset.range n, Cx.normSq (psi i) = 1

instance (n : ℕ) (psi : ℕ → Cx) : Decidable (UnitNorm n psi) := by
  unfold UnitNorm; infer_instance

/-- The identity operator in CSR layout: one stored value 1 per row i at
column i, row pointers 0, 1, 2, .... -/
def idCSR : CSR := ⟨fun _ => 1, fun k => k, fun i => i⟩

/-- A concrete 2×2 Hermitian operator [[1, i], [-i, 2]] in CSR layout,
used to witness the kernel theorems. -/
def csrEx : CSR where
  data k := if k = 0 then ⟨1, 0⟩ else if k = 1 then ⟨0, 1⟩
    else if k = 2 then ⟨0, -1⟩ else if k = 3 then ⟨2, 0⟩ else 0
  indices k := if k = 0 then 0 else if k = 1 then 1
    else if k = 2 then 0 else if k = 3 then 1 else 0
  indptr i := min (2 * i) 4

/-- The CSR layout of 2·[[1, i], [-i, 2]] + 3·I = [[5, 2i], [-2i, 7]],
used to witness the linearity theorem. -/
def csrEx2 : CSR where
  data k := if k = 0 then ⟨5, 0⟩ else if k = 1 then ⟨0, 2⟩
    else if k = 2 then ⟨0, -2⟩ else if k = 3 then ⟨7, 0⟩ else 0
  indices k := if k = 0 then 0 else if k = 1 then 1
    else if k = 2 then 0 else if k = 3 then 1 else 0
  indptr i := min (2 * i) 4

/-- The all-zero operator in CSR layout: no stored entries, all row
pointers equal. -/
def zeroCSR : CSR := ⟨fun _ => 0, fun _ => 0, fun _ => 0⟩

/-- A concrete unit-norm 2-dimensional state vector (3/5, 4i/5). -/
def psiEx : ℕ → Cx := fun i => if i = 0 then ⟨3/5, 0⟩ else if i = 1 then ⟨0, 4/5⟩ else 0

end NamedOperators

section Claims

/-- C1: for every Hermitian sparse operator A and every unit-norm state
vector ψ of matching dimension, the expectation value computed by the
sparse wavefunction kernel on (A, ψ) equals the expectation value computed
by the density-operator/vectorized kernel on (A, ρ) with ρ = ψψ*; with
exact arithmetic the two agree exactly. -/
theorem C1_representation_consistency (n : ℕ) (A : CSR) (psi : ℕ → Cx)
    (hwf : colsOk n A) (_hherm : IsHermitian n A) (_hnorm : UnitNorm n psi) :
    cy_expect n A psi = expect_rho_vec n (spre n A) (vecDM n (outer psi)) := by
  unfold cy_expect expect_rho_vec
  rw [cy_expect_complex_eq_dense n A psi hwf, expect_rho_vec_complex_outer n A psi]
  congr 1
  apply Finset.sum_congr rfl
  intro d _
  rw [Finset.mul_sum]
  exact Finset.sum_congr rfl fun k _ => by ring

/-- Witness for C1: the two kernels agree at the concrete 2-dimensional
Hermitian operator [[1, i], [-i, 2]] and the unit vector (3/5, 4i/5). -/
theorem C1_representation_consistency_witness :
    cy_expect 2 csrEx psiEx = expect_rho_vec 2 (spre 2 csrEx) (vecDM 2 (outer psiEx)) :=
  C1_representation_consistency 2 csrEx psiEx (by decide)
    (by
      unfold IsHermitian
      intro i hi j hj
      interval_cases i <;> interval_cases j <;>
        simp [toDense, csrEx, conj, Finset.sum_Ico_eq_sum_range, Finset.sum_range_succ])
    (by
      unfold UnitNorm psiEx
      rw [Finset.sum_range_succ, Finset.sum_range_succ, Finset.sum_range_zero]
      norm_num [Cx.normSq])

/-- C2: the wavefunction-case kernel returns the real part of the complex
sum over all rows i of conj(ψ[i])·(Aψ)[i], where (Aψ)[i] is the sum over
the nonzero entries of row i of value·ψ[column index]; and the two-pass
implementation that first materializes Aψ and then reduces computes the
same value as the fused single pass. -/
theorem C2_wavefunction_kernel (n : ℕ) (A : CSR) (psi : ℕ → Cx) :
    cy_expect n A psi =
      (∑ i in Finset.range n, conj (psi i) *
        ∑ k in Finset.Ico (A.indptr i) (A.indptr (i + 1)),
          A.data k * psi (A.indices k)).re ∧
    expect_psi_complex n A psi = cy_expect_complex n A psi :=
  ⟨by rw [cy_expect, cy_expect_complex_eq_sum], expect_psi_complex_eq n A psi⟩

/-- C3: on a dimension mismatch (vector of length m ≠ n, or vectorized
density matrix of length m ≠ n²) the checked kernel fails with
`InvalidDimension` and returns no partial result, and an error is returned
only on a dimension mismatch (the kernel's only failure mode). -/
theorem C3_dimension_mismatch (n : ℕ) (A : CSR) (psi rhoVec : List Cx) :
    (psi.length ≠ n → expect_checked n A psi = Except.error KernelError.InvalidDimension) ∧
    (∀ e, expect_checked n A psi = Except.error e →
      e = KernelError.InvalidDimension ∧ psi.length ≠ n) ∧
    (rhoVec.length ≠ n * n →
      expect_rho_vec_checked n A rhoVec = Except.error KernelError.InvalidDimension) ∧
    (∀ e, expect_rho_vec_checked n A rhoVec = Except.error e →
      e = KernelError.InvalidDimension ∧ rhoVec.length ≠ n * n) := by
  refine ⟨fun h => ?_, fun e he => ?_, fun h => ?_, fun e he => ?_⟩
  · rw [expect_checked, if_neg h]
  · by_cases hl : psi.length = n
    · rw [expect_checked, if_pos hl] at he
      exact absurd he (by simp)
    · exact ⟨by cases e; rfl, hl⟩
  · rw [expect_rho_vec_checked, if_neg h]
  · by_cases hl : rhoVec.length = n * n
    · rw [expect_rho_vec_checked, if_pos hl] at he
      exact absurd he (by simp)
    · exact ⟨by cases e; rfl, hl⟩

/-- Witness for C3: a length-1 vector and a length-0 vectorized density
matrix are both rejected by the dimension-2 kernel with `InvalidDimension`. -/
theorem C3_dimension_mismatch_witness :
    expect_checked 2 csrEx [⟨1, 0⟩] = Except.error KernelError.InvalidDimension ∧
    expect_rho_vec_checked 2 csrEx [] = Except.error KernelError.InvalidDimension :=
  ⟨(C3_dimension_mismatch 2 csrEx [⟨1, 0⟩] []).1 (by decide),
   (C3_dimension_mismatch 2 csrEx [⟨1, 0⟩] []).2.2.1 (by decide)⟩

/-- C4: for Hermitian operators A and B of equal dimension, real scalars
α and β, and any matching state vector, the expectation value is linear:
whenever the CSR operator C represents αA + βB entrywise,
expectation(C, ψ) = α·expectation(A, ψ) + β·expectation(B, ψ); with exact
arithmetic the equality is exact. -/
theorem C4_linearity (n : ℕ) (A B C : CSR) (alpha beta : ℚ) (psi : ℕ → Cx)
    (hA : colsOk n A) (hB : colsOk n B) (hC : colsOk n C)
    (_hhA : IsHermitian n A) (_hhB : IsHermitian n B)
    (hcomb : ∀ i < n, ∀ j < n,
      toDense C i j = ofRat alpha * toDense A i j + ofRat beta * toDense B i j) :
    cy_expect n C psi = alpha * cy_expect n A psi + beta * cy_expect n B psi := by
  unfold cy_expect
  rw [cy_expect_complex_eq_dense n A psi hA, cy_expect_complex_eq_dense n B psi hB,
    cy_expect_complex_eq_dense n C psi hC]
  have hcx : (∑ i in Finset.range n, conj (psi i) * ∑ j in Finset.range n, toDense C i j * psi j)
      = ofRat alpha * (∑ i in Finset.range n, conj (psi i) *
          ∑ j in Finset.range n, toDense A i j * psi j)
        + ofRat beta * (∑ i in Finset.range n, conj (psi i) *
          ∑ j in Finset.range n, toDense B i j * psi j) := by
    rw [Finset.mul_sum, Finset.mul_sum, ← Finset.sum_add_distrib]
    apply Finset.sum_congr rfl
    intro i hi
    have hrow : (∑ j in Finset.range n, toDense C i j * psi j)
        = ∑ j in Finset.range n,
            (ofRat alpha * (toDense A i j * psi j) + ofRat beta * (toDense B i j * psi j)) := by
      apply Finset.sum_congr rfl
      intro j hj
      rw [hcomb i (Finset.mem_range.mp hi) j (Finset.mem_range.mp hj)]
      ring
    rw [hrow, Finset.sum_add_distrib, ← Finset.mul_sum, ← Finset.mul_sum]
    ring
  rw [hcx]
  simp

/-- Witness for C4: linearity at C = 2·A + 3·I with A = [[1, i], [-i, 2]]
and the unit vector (3/5, 4i/5). -/
theorem C4_linearity_witness :
    cy_expect 2 csrEx2 psiEx = 2 * cy_expect 2 csrEx psiEx + 3 * cy_expect 2 idCSR psiEx :=
  C4_linearity 2 csrEx idCSR csrEx2 2 3 psiEx (by decide) (by decide) (by decide)
    (by
      unfold IsHermitian
      intro i hi j hj
      interval_cases i <;> interval_cases j <;>
        simp [toDense, csrEx, conj, Finset.sum_Ico_eq_sum_range, Finset.sum_range_succ])
    (by
      unfold IsHermitian
      intro i hi j hj
      interval_cases i <;> interval_cases j <;>
        simp [toDense, idCSR, conj, Cx.one_def, Cx.zero_def,
          Finset.sum_Ico_eq_sum_range, Finset.sum_range_succ])
    (by
      intro i hi j hj
      interval_cases i <;> interval_cases j <;>
        simp [toDense, csrEx, csrEx2, idCSR, ofRat, Cx.one_def, Cx.zero_def,
          Cx.mk_mul_mk, Cx.mk_add_mk,
          Finset.sum_Ico_eq_sum_range, Finset.sum_range_succ] <;>
        norm_num)

/-- C5: the expectation value of the all-zero sparse operator (no nonzero
entries, all row pointers equal) against any vector is exactly 0 — both
the returned real part and the raw complex accumulator, with no rounding
tolerance needed. -/
theorem C5_zero_operator (n : ℕ) (A : CSR) (psi : ℕ → Cx)
    (h : ∀ i ≤ n, A.indptr i = A.indptr 0) :
    cy_expect n A psi = 0 ∧ cy_expect_complex n A psi = 0 := by
  have hz : cy_expect_complex n A psi = 0 := by
    rw [cy_expect_complex_eq_sum]
    apply Finset.sum_eq_zero
    intro i hi
    have hi' := Finset.mem_range.mp hi
    rw [h i (le_of_lt hi'), h (i + 1) hi', Finset.Ico_self, Finset.sum_empty, mul_zero]
  exact ⟨by rw [cy_expect, hz]; rfl, hz⟩

/-- Witness for C5: the zero operator gives expectation exactly 0 at the
concrete vector (3/5, 4i/5) in dimension 2. -/
theorem C5_zero_operator_witness :
    cy_expect 2 zeroCSR psiEx = 0 ∧ cy_expect_complex 2 zeroCSR psiEx = 0 :=
  C5_zero_operator 2 zeroCSR psiEx (by decide)

/-- C6: the expectation value of the identity operator against any
unit-norm state vector equals 1 exactly. -/
theorem C6_identity_operator (n : ℕ) (psi : ℕ → Cx) (hnorm : UnitNorm n psi) :
    cy_expect n idCSR psi = 1 := by
  unfold cy_expect
  rw [cy_expect_complex_eq_sum]
  have hterm : ∀ i ∈ Finset.range n,
      conj (psi i) * ∑ k in Finset.Ico (idCSR.indptr i) (idCSR.indptr (i + 1)),
        idCSR.data k * psi (idCSR.indices k)
      = (⟨Cx.normSq (psi i), 0⟩ : Cx) := by
    intro i _
    show conj (psi i) * ∑ k in Finset.Ico i (i + 1), (1 : Cx) * psi k = _
    rw [Nat.Ico_succ_singleton, Finset.sum_singleton, one_mul, conj_mul_self]
  rw [Finset.sum_congr rfl hterm, re_sum]
  exact hnorm

/-- Witness for C6: the identity operator's expectation at the concrete
unit vector (3/5, 4i/5) is 1. -/
theorem C6_identity_operator_witness : cy_expect 2 idCSR psiEx = 1 :=
  C6_identity_operator 2 psiEx
    (by
      unfold UnitNorm psiEx
      rw [Finset.sum_range_succ, Finset.sum_range_succ, Finset.sum_range_zero]
      norm_num [Cx.normSq])

end Claims

end QutipKernels
